import Mathlib

/-!
Shallow embedding of the character-level lexer (lexer.c, logging.c, main.c).

Conventions of the embedding.

* A source file is a finite list of bytes (`Fin 256`).  A `FILE*` is a pointer:
  the stream object it points to (the bytes not yet read) is shared by the
  caller and the callee, so it is threaded through every function; the other
  two fields of the C struct `File` (`line`, `pos`) travel by value.
* `char` is the signed 8-bit type of the usual x86-64 ABI: a value of type
  `char` is an `Int` between -128 and 127, and storing an `int` into a `char`
  wraps modulo 256 (`toChar`).  `EOF` is -1.
* `stderr` is the list of diagnostic lines written so far; `exit(1)` is
  recorded in `World.status`, and nothing runs after it.
* The `while` loop of `lexer` is iterated with fuel; `lexer` supplies as much
  fuel as the file has bytes, plus two, and is shown never to run out.
-/

namespace Compiler

/-! ## compiler.h -/

inductive TokenType where
  | NUMBER | CHAR | STRING | EQ | NEQ | GT | LT | GEQ | LEQ | COMMA | AND | OR
  | ASSIGN | NOT | PLUS | MINUS | ASTERIX | SLASH | PERCENT | CARET
  | LBRACKET | RBRACKET
  deriving DecidableEq, Repr

structure Location where
  start_line : Int
  start_pos : Int
  end_line : Int
  end_pos : Int
  deriving DecidableEq, Repr

structure Token where
  tokenType : TokenType
  loc : Location
  value : String
  deriving DecidableEq, Repr

/-! ## C library: bytes, characters, streams -/

abbrev Byte := Fin 256

/-- The stream object behind a `FILE*`: the bytes that have not been read. -/
abbrev FILE := List Byte

def EOF : Int := -1

/-- Line feed, the character constant written backslash-n in C. -/
def LF : Int := 10

/-- Carriage return, the character constant written backslash-r in C. -/
def CR : Int := 13

/-- Conversion of an `int` to (signed, 8-bit) `char`. -/
def toChar (x : Int) : Int := (x + 128) % 256 - 128

/-- Conversion of an `int` to `unsigned char`, as `ungetc` does. -/
def toUChar (x : Int) : Byte := Fin.ofNat (x % 256).toNat

/-- Model of `getc` and `fgetc`: the next byte as a non-negative `int`, or `EOF`. -/
def getc : FILE → Int × FILE
  | [] => (EOF, [])
  | b :: rest => ((b.val : Int), rest)

/-- Model of `ungetc(c, fp)`: pushing back `EOF` fails and leaves the stream
as it is; any other value is pushed back as an `unsigned char`. -/
def ungetc (c : Int) (fp : FILE) : FILE :=
  if c = EOF then fp else toUChar c :: fp

/-! ## logging.c -/

def ERROR : Nat := 0
def WARNING : Nat := 1
def INFO : Nat := 2

/-- One variadic argument of a report call. -/
inductive Arg where
  | chr (c : Int)
  | str (s : String)
  deriving DecidableEq, Repr

/-- One line on `stderr`: the severity label selected by `type`, the quoted
token and its position when written by `print_token`, then the format with
its arguments, then the newline. -/
structure Diag where
  type : Nat
  token : Option Token
  fmt : String
  args : List Arg
  deriving DecidableEq, Repr

/-- What the process has done to the outside: lines on `stderr`, lines on
`stdout`, and the exit status once the process has ended (`none`: still live). -/
structure World where
  stderr : List Diag
  stdout : List String
  status : Option Nat
  deriving DecidableEq, Repr

def World.start : World := { stderr := [], stdout := [], status := none }

def print_token (token : Token) (type : Nat) (fmt : String) (args : List Arg)
    (w : World) : World :=
  { w with stderr := w.stderr ++ [{ type := type, token := some token, fmt := fmt, args := args }] }

def print (type : Nat) (fmt : String) (args : List Arg) (w : World) : World :=
  { w with stderr := w.stderr ++ [{ type := type, token := none, fmt := fmt, args := args }] }

/-- Model of `exit(code)`. -/
def exit (code : Nat) (w : World) : World := { w with status := some code }

def lerror (fmt : String) (args : List Arg) (w : World) : World :=
  exit 1 (print ERROR fmt args w)

def lwarn (fmt : String) (args : List Arg) (w : World) : World :=
  print WARNING fmt args w

def linfo (fmt : String) (args : List Arg) (w : World) : World :=
  print INFO fmt args w

def lerrort (token : Token) (fmt : String) (args : List Arg) (w : World) : World :=
  exit 1 (print_token token ERROR fmt args w)

def lwarnt (token : Token) (fmt : String) (args : List Arg) (w : World) : World :=
  print_token token WARNING fmt args w

def linfot (token : Token) (fmt : String) (args : List Arg) (w : World) : World :=
  print_token token INFO fmt args w

/-! ## lexer.c -/

/-- The by-value part of the C struct `File`. -/
structure File where
  line : Int
  pos : Int
  deriving DecidableEq, Repr

/-- Model of `fopen(filename, "r")` on a file system `fs`. -/
def fopen (fs : String → Option (List Byte)) (filename : String) : Option FILE :=
  fs filename

/-- Model of `create_file`: on failure `lerror` ends the process and the
function does not return (second component `none`). -/
def create_file (fs : String → Option (List Byte)) (filename : String) (w : World) :
    World × Option (File × FILE) :=
  match fopen fs filename with
  | none => (lerror "Error trying to open the file (%s)" [Arg.str filename] w, none)
  | some fp => (w, some ({ line := 1, pos := 1 }, fp))

/-- Model of `nextc(File f)`.  The result is the returned character, the
stream after the read, and the callee's own copy of `f` at the `return`
(the parameter is passed by value: the caller's struct is not touched). -/
def nextc (f : File) (fp : FILE) : Int × FILE × File :=
  let r := getc fp
  let c0 := toChar r.1
  let c := if c0 = CR then LF else c0
  let f1 : File :=
    if c = LF then { line := f.line + 1, pos := 1 } else { line := f.line, pos := f.pos + 1 }
  (c, r.2, f1)

/-- Model of `peek(File f)`: the returned character and the stream afterwards. -/
def peek (_f : File) (fp : FILE) : Int × FILE :=
  let r := getc fp
  let c := toChar r.1
  (c, ungetc c r.2)

/-- The variables of `lexer` while its loop runs.  `tokens` lists the `Token`
values the run has built and `reads` the characters `nextc` has returned so
far, in order; both are observation fields, and no statement of `lexer`
builds a token. -/
structure LexState where
  file : File
  fp : FILE
  curr_char : Int
  w : World
  tokens : List Token
  reads : List Int
  deriving DecidableEq, Repr

/-- One execution of the body of the `while` loop. -/
def loopBody (st : LexState) : LexState :=
  let r := nextc st.file st.fp
  let c := r.1
  let st1 : LexState := { st with curr_char := c, fp := r.2.1, reads := st.reads ++ [c] }
  if c = LF then
    let w1 := linfo "Character is new line" [] st1.w
    let p := peek st1.file st1.fp
    { st1 with fp := p.2, w := linfo "Next character is: %c" [Arg.chr p.1] w1 }
  else if c = EOF then
    { st1 with w := lwarn "Character is end of file." [] st1.w }
  else
    { st1 with w := linfo "Char: %c" [Arg.chr c] st1.w }

/-- The `while (curr_char != EOF)` loop, with fuel. -/
def whileLoop : Nat → LexState → Option LexState
  | 0, _ => none
  | fuel + 1, st => if st.curr_char ≠ EOF then whileLoop fuel (loopBody st) else some st

/-- The state in which the loop condition is first evaluated: `file` as
returned by `create_file`, and `curr_char` holding whatever byte `junk` its
uninitialised storage contains. -/
def initState (file : File) (fp : FILE) (junk : Byte) (w : World) : LexState :=
  { file := file, fp := fp, curr_char := toChar junk.val, w := w, tokens := [], reads := [] }

/-- What a call of `lexer` leaves behind. -/
structure Run where
  w : World
  tokens : List Token
  reads : List Int
  file : Option File
  deriving DecidableEq, Repr

/-- Model of `lexer(filename)`.  `junk` is the byte that the storage of the
uninitialised local `curr_char` holds when the loop condition is first
evaluated.  The result is `none` only if the loop runs out of fuel.  The
closing `fclose` changes nothing that is observed here and is left out. -/
def lexer (fs : String → Option (List Byte)) (filename : String) (junk : Byte)
    (w : World) : Option Run :=
  match create_file fs filename w with
  | (w1, none) => some { w := w1, tokens := [], reads := [], file := none }
  | (w1, some (file, fp)) =>
    match whileLoop (fp.length + 2) (initState file fp junk w1) with
    | none => none
    | some st => some { w := st.w, tokens := st.tokens, reads := st.reads, file := some st.file }

/-! ## main.c -/

def usage (exitcode : Nat) (w : World) : World :=
  exit exitcode { w with stdout := w.stdout ++ ["Wrong command usage.\n"] }

/-- Model of `main(argc, argv)`: the final world, whose `status` is the exit
status of the process (falling off the end of `main` returns 0). -/
def main (fs : String → Option (List Byte)) (argv : List String) (junk : Byte) :
    Option World :=
  if argv.length ≠ 2 then some (usage 1 World.start)
  else
    match lexer fs (argv.getD 1 "") junk World.start with
    | none => none
    | some r =>
      match r.w.status with
      | some _ => some r.w
      | none => some (exit 0 r.w)

/-- A file system with one readable file. -/
def oneFile (name : String) (bytes : List Byte) : String → Option (List Byte) :=
  fun n => if n = name then some bytes else none

/-! ## Vocabulary of the properties -/

/-- The character `nextc` is specified to return for the byte `b`. -/
def normChar (b : Byte) : Int := if b = 13 ∨ b = 10 then LF else toChar b.val

/-- The next unconsumed character of a stream, or `EOF` at its end. -/
def nextChar : FILE → Int
  | [] => EOF
  | b :: _ => toChar b.val

/-- The end-of-file warning of `lexer`. -/
def eofWarning : Diag :=
  { type := WARNING, token := none, fmt := "Character is end of file.", args := [] }

/-- The line `Char: c`. -/
def charLine (c : Int) : Diag :=
  { type := INFO, token := none, fmt := "Char: %c", args := [Arg.chr c] }

/-- The line `Character is new line`. -/
def newLineLine : Diag :=
  { type := INFO, token := none, fmt := "Character is new line", args := [] }

/-- The line `Next character is: c`. -/
def nextLine (c : Int) : Diag :=
  { type := INFO, token := none, fmt := "Next character is: %c", args := [Arg.chr c] }

/-- The info lines listed for the bytes of a source: one `Char` line for a
byte that is not a line break, two lines for a line break (the second shows
the next unconsumed character). -/
def charDiags : List Byte → List Diag
  | [] => []
  | b :: rest =>
    if b = 13 ∨ b = 10 then newLineLine :: nextLine (nextChar rest) :: charDiags rest
    else charLine (toChar b.val) :: charDiags rest

/-- The diagnostics listed for a source: its info lines, then the warning. -/
def expectedDiags (bytes : List Byte) : List Diag := charDiags bytes ++ [eofWarning]

/-- The input `s` with every line feed replaced by a carriage return. -/
def crOnly (s : List Byte) : List Byte := s.map (fun b => if b = 10 then 13 else b)

/-- The input `s` with every line feed replaced by carriage return, line feed. -/
def crlf (s : List Byte) : List Byte := s.flatMap (fun b => if b = 10 then [13, 10] else [b])

/-- Space, tab or newline. -/
def isWhitespace (b : Byte) : Prop := b = 32 ∨ b = 9 ∨ b = 10

instance (b : Byte) : Decidable (isWhitespace b) := by unfold isWhitespace; infer_instance

/-! ## Facts about the C library model -/

theorem toChar_byte_eq_EOF (b : Byte) : toChar b.val = EOF ↔ b = 255 := by
  have h := b.isLt
  have hk : ((255 : Byte) : Nat) = 255 := rfl
  rw [Fin.ext_iff, hk]
  unfold toChar EOF
  omega

theorem toChar_byte_eq_CR (b : Byte) : toChar b.val = CR ↔ b = 13 := by
  have h := b.isLt
  have hk : ((13 : Byte) : Nat) = 13 := rfl
  rw [Fin.ext_iff, hk]
  unfold toChar CR
  omega

theorem toChar_byte_eq_LF (b : Byte) : toChar b.val = LF ↔ b = 10 := by
  have h := b.isLt
  have hk : ((10 : Byte) : Nat) = 10 := rfl
  rw [Fin.ext_iff, hk]
  unfold toChar LF
  omega

theorem toUChar_toChar (b : Byte) : toUChar (toChar b.val) = b := by
  have h := b.isLt
  apply Fin.ext
  unfold toUChar toChar
  simp [Fin.ofNat]
  omega

theorem normChar_ne_EOF (b : Byte) (h : b ≠ 255) : normChar b ≠ EOF := by
  unfold normChar
  split
  · decide
  · rw [Ne, toChar_byte_eq_EOF]; exact h

theorem normChar_eq_LF (b : Byte) : normChar b = LF ↔ (b = 13 ∨ b = 10) := by
  unfold normChar
  split
  · simp_all
  · rename_i h
    rw [toChar_byte_eq_LF]
    constructor
    · intro h10; exact Or.inr h10
    · intro h2; exact absurd h2 h

/-! ## Facts about `nextc` and `peek` -/

theorem nextc_nil (f : File) :
    nextc f [] = (EOF, [], { line := f.line, pos := f.pos + 1 }) := by
  rfl

theorem nextc_cons (f : File) (b : Byte) (rest : FILE) :
    nextc f (b :: rest) =
      (normChar b, rest,
        if normChar b = LF then { line := f.line + 1, pos := 1 }
        else { line := f.line, pos := f.pos + 1 }) := by
  have hc : (if toChar b.val = CR then LF else toChar b.val) = normChar b := by
    unfold normChar
    by_cases h13 : b = 13
    · simp [h13, (toChar_byte_eq_CR 13).mpr rfl]
    · have hne : ¬ toChar b.val = CR := by rw [toChar_byte_eq_CR]; exact h13
      by_cases h10 : b = 10
      · simp [h10, (toChar_byte_eq_LF 10).mpr rfl]
      · simp [h13, h10, hne]
  simp only [nextc, getc, hc]

theorem peek_nil (f : File) : peek f [] = (EOF, []) := by
  rfl

theorem peek_cons (f : File) (b : Byte) (rest : FILE) (h : b ≠ 255) :
    peek f (b :: rest) = (toChar b.val, b :: rest) := by
  have hne : ¬ toChar b.val = EOF := by rw [toChar_byte_eq_EOF]; exact h
  simp only [peek, getc, ungetc, hne, if_false, toUChar_toChar]

theorem peek_of_no255 (f : File) (fp : FILE) (h : ∀ b ∈ fp, b ≠ 255) :
    peek f fp = (nextChar fp, fp) := by
  cases fp with
  | nil => rfl
  | cons b rest => exact peek_cons f b rest (h b (List.mem_cons_self b rest))

theorem peek_length_le (f : File) (fp : FILE) : (peek f fp).2.length ≤ fp.length := by
  cases fp with
  | nil => simp [peek_nil]
  | cons b rest =>
    simp only [peek, getc, ungetc]
    split <;> simp

/-! ## One iteration of the loop -/

theorem LF_ne_EOF : LF ≠ EOF := by decide

theorem loopBody_nil (st : LexState) (h : st.fp = []) :
    loopBody st =
      { st with curr_char := EOF, fp := [], reads := st.reads ++ [EOF],
                w := lwarn "Character is end of file." [] st.w } := by
  unfold loopBody
  rw [h, nextc_nil]
  simp [EOF, LF]

theorem loopBody_linebreak (st : LexState) (b : Byte) (rest : FILE)
    (h : st.fp = b :: rest) (hb : b = 13 ∨ b = 10) :
    loopBody st =
      { st with curr_char := LF, fp := (peek st.file rest).2, reads := st.reads ++ [LF],
                w := linfo "Next character is: %c" [Arg.chr (peek st.file rest).1]
                      (linfo "Character is new line" [] st.w) } := by
  have hc : normChar b = LF := (normChar_eq_LF b).mpr hb
  unfold loopBody
  rw [h, nextc_cons]
  simp [hc]

theorem loopBody_other (st : LexState) (b : Byte) (rest : FILE)
    (h : st.fp = b :: rest) (hb : ¬ (b = 13 ∨ b = 10)) (h255 : b ≠ 255) :
    loopBody st =
      { st with curr_char := toChar b.val, fp := rest, reads := st.reads ++ [toChar b.val],
                w := linfo "Char: %c" [Arg.chr (toChar b.val)] st.w } := by
  have hc : normChar b = toChar b.val := by unfold normChar; simp [hb]
  have h1 : ¬ toChar b.val = LF := by rw [← hc, normChar_eq_LF]; exact hb
  have h2 : ¬ toChar b.val = EOF := by rw [toChar_byte_eq_EOF]; exact h255
  unfold loopBody
  rw [h, nextc_cons]
  simp [hc, h1, h2]

theorem loopBody_file (st : LexState) : (loopBody st).file = st.file := by
  unfold loopBody
  simp only []
  split
  · rfl
  · split <;> rfl

theorem loopBody_tokens (st : LexState) : (loopBody st).tokens = st.tokens := by
  unfold loopBody
  simp only []
  split
  · rfl
  · split <;> rfl

theorem loopBody_status (st : LexState) : (loopBody st).w.status = st.w.status := by
  unfold loopBody
  simp only []
  split
  · rfl
  · split <;> rfl

theorem loopBody_stdout (st : LexState) : (loopBody st).w.stdout = st.w.stdout := by
  unfold loopBody
  simp only []
  split
  · rfl
  · split <;> rfl

/-- An iteration only appends lines of type `INFO` or `WARNING` to `stderr`. -/
theorem loopBody_stderr (st : LexState) :
    ∃ new : List Diag, (loopBody st).w.stderr = st.w.stderr ++ new ∧
      ∀ d ∈ new, d.type ≠ ERROR := by
  have hI : INFO ≠ ERROR := by decide
  have hW : WARNING ≠ ERROR := by decide
  unfold loopBody
  simp only []
  split
  · refine ⟨[Diag.mk INFO none "Character is new line" [],
      Diag.mk INFO none "Next character is: %c"
        [Arg.chr (peek st.file (nextc st.file st.fp).2.1).1]], ?_, ?_⟩
    · simp only [linfo, print, List.append_assoc, List.singleton_append]
    · intro d hd
      simp only [List.mem_cons, List.mem_singleton, List.not_mem_nil, or_false] at hd
      rcases hd with rfl | rfl <;> exact hI
  · split
    · refine ⟨[Diag.mk WARNING none "Character is end of file." []], rfl, ?_⟩
      intro d hd
      simp only [List.mem_singleton] at hd
      subst hd; exact hW
    · refine ⟨[Diag.mk INFO none "Char: %c" [Arg.chr (nextc st.file st.fp).1]], rfl, ?_⟩
      intro d hd
      simp only [List.mem_singleton] at hd
      subst hd; exact hI

theorem loopBody_reads_length (st : LexState) :
    (loopBody st).reads.length = st.reads.length + 1 := by
  unfold loopBody
  simp only []
  split
  · simp
  · split <;> simp

/-- At the end of the input an iteration stores `EOF` in `curr_char`;
otherwise it shortens the stream. -/
theorem loopBody_progress (st : LexState) :
    (st.fp = [] ∧ (loopBody st).curr_char = EOF ∧ (loopBody st).fp = []) ∨
      (loopBody st).fp.length < st.fp.length := by
  cases hfp : st.fp with
  | nil =>
    left
    rw [loopBody_nil st hfp]
    exact ⟨rfl, rfl, rfl⟩
  | cons b rest =>
    right
    unfold loopBody
    rw [hfp, nextc_cons]
    simp only []
    split
    · have := peek_length_le st.file rest
      simp only [List.length_cons]
      omega
    · split <;> simp

/-! ## The loop -/

/-- Loop invariant rule: what every iteration preserves holds at the exit. -/
theorem whileLoop_inv (P : LexState → Prop) (hP : ∀ st, P st → P (loopBody st)) :
    ∀ (fuel : Nat) (st out : LexState), P st → whileLoop fuel st = some out → P out := by
  intro fuel
  induction fuel with
  | zero => intro st out _ h; simp [whileLoop] at h
  | succ n ih =>
    intro st out hst h
    unfold whileLoop at h
    split at h
    · exact ih (loopBody st) out (hP st hst) h
    · cases h; exact hst

/-- The loop is left only with `curr_char` equal to `EOF`. -/
theorem whileLoop_exit :
    ∀ (fuel : Nat) (st out : LexState), whileLoop fuel st = some out → out.curr_char = EOF := by
  intro fuel
  induction fuel with
  | zero => intro st out h; simp [whileLoop] at h
  | succ n ih =>
    intro st out h
    unfold whileLoop at h
    split at h
    · exact ih (loopBody st) out h
    · rename_i hc
      cases h
      exact not_not.mp hc

/-- Termination: with two more units of fuel than unread bytes the loop ends. -/
theorem whileLoop_terminates :
    ∀ (n : Nat) (st : LexState), st.fp.length ≤ n → ∃ out, whileLoop (n + 2) st = some out := by
  intro n
  induction n with
  | zero =>
    intro st hlen
    have hfp : st.fp = [] := List.length_eq_zero.mp (Nat.le_zero.mp hlen)
    by_cases hc : st.curr_char = EOF
    · exact ⟨st, by simp [whileLoop, hc]⟩
    · refine ⟨loopBody st, ?_⟩
      have h1 : (loopBody st).curr_char = EOF := by rw [loopBody_nil st hfp]
      simp [whileLoop, hc, h1]
  | succ m ih =>
    intro st hlen
    by_cases hc : st.curr_char = EOF
    · exact ⟨st, by simp [whileLoop, hc]⟩
    · have hstep : whileLoop (m + 1 + 2) st = whileLoop (m + 2) (loopBody st) := by
        simp [whileLoop, hc]
      rw [hstep]
      rcases loopBody_progress st with ⟨_, h1, _⟩ | hlt
      · exact ⟨loopBody st, by simp [whileLoop, h1]⟩
      · exact ih (loopBody st) (by omega)

/-- More fuel does not change the result. -/
theorem whileLoop_mono :
    ∀ (fuel : Nat) (st out : LexState) (k : Nat),
      whileLoop fuel st = some out → whileLoop (fuel + k) st = some out := by
  intro fuel
  induction fuel with
  | zero => intro st out k h; simp [whileLoop] at h
  | succ n ih =>
    intro st out k h
    have e : n + 1 + k = (n + k) + 1 := by omega
    rw [e]
    unfold whileLoop at h ⊢
    split at h
    · rename_i hc
      rw [if_pos hc]
      exact ih (loopBody st) out k h
    · rename_i hc
      rw [if_neg hc]
      exact h

/-- The loop on a stream without the byte 0xFF, entered with `curr_char`
different from `EOF`: every byte is read once, in order, and reported. -/
theorem whileLoop_no255 :
    ∀ (fp : FILE) (st : LexState) (fuel : Nat), st.fp = fp → (∀ b ∈ fp, b ≠ 255) →
      st.curr_char ≠ EOF → fp.length + 2 ≤ fuel →
      whileLoop fuel st =
        some { file := st.file, fp := [], curr_char := EOF,
               w := { st.w with stderr := st.w.stderr ++ expectedDiags fp },
               tokens := st.tokens,
               reads := st.reads ++ (fp.map normChar ++ [EOF]) } := by
  intro fp
  induction fp with
  | nil =>
    intro st fuel hfp _ hc hfuel
    obtain ⟨j, rfl⟩ : ∃ j, fuel = j + 2 := ⟨fuel - 2, by simp at hfuel; omega⟩
    simp [whileLoop, hc, loopBody_nil st hfp, expectedDiags, charDiags, eofWarning, lwarn, print]
  | cons b rest ih =>
    intro st fuel hfp h255 hc hfuel
    obtain ⟨j, rfl⟩ : ∃ j, fuel = j + 1 := ⟨fuel - 1, by simp at hfuel; omega⟩
    have hb : b ≠ 255 := h255 b (List.mem_cons_self b rest)
    have hrest : ∀ x ∈ rest, x ≠ 255 := fun x hx => h255 x (List.mem_cons_of_mem b hx)
    have hj : rest.length + 2 ≤ j := by simp at hfuel; omega
    have hstep : whileLoop (j + 1) st = whileLoop j (loopBody st) := by
      simp [whileLoop, hc]
    rw [hstep]
    by_cases hlb : b = 13 ∨ b = 10
    · have hbody := loopBody_linebreak st b rest hfp hlb
      rw [peek_of_no255 st.file rest hrest] at hbody
      have hn : normChar b = LF := (normChar_eq_LF b).mpr hlb
      rw [ih (loopBody st) j (by rw [hbody]) hrest (by rw [hbody]; exact LF_ne_EOF) hj, hbody]
      simp [expectedDiags, charDiags, newLineLine, nextLine, hlb, hn, linfo, print]
    · have hbody := loopBody_other st b rest hfp hlb hb
      have hn : normChar b = toChar b.val := by unfold normChar; simp [hlb]
      have hne : toChar b.val ≠ EOF := by rw [Ne, toChar_byte_eq_EOF]; exact hb
      rw [ih (loopBody st) j (by rw [hbody]) hrest (by rw [hbody]; exact hne) hj, hbody]
      simp [expectedDiags, charDiags, charLine, hlb, hn, linfo, print]

theorem charDiags_info : ∀ (bytes : List Byte), ∀ d ∈ charDiags bytes, d.type = INFO := by
  intro bytes
  induction bytes with
  | nil => intro d hd; simp [charDiags] at hd
  | cons b rest ih =>
    intro d hd
    unfold charDiags at hd
    split at hd
    · simp only [List.mem_cons] at hd
      rcases hd with rfl | rfl | hd
      · rfl
      · rfl
      · exact ih d hd
    · simp only [List.mem_cons] at hd
      rcases hd with rfl | hd
      · rfl
      · exact ih d hd

theorem expectedDiags_no_error (bytes : List Byte) :
    ∀ d ∈ expectedDiags bytes, d.type ≠ ERROR := by
  intro d hd
  unfold expectedDiags at hd
  rw [List.mem_append] at hd
  rcases hd with hd | hd
  · rw [charDiags_info bytes d hd]; decide
  · simp only [List.mem_singleton] at hd
    subst hd; decide

/-! ## The function `lexer` -/

theorem lexer_open_fails (fs : String → Option (List Byte)) (filename : String) (junk : Byte)
    (w : World) (h : fs filename = none) :
    lexer fs filename junk w =
      some { w := lerror "Error trying to open the file (%s)" [Arg.str filename] w,
             tokens := [], reads := [], file := none } := by
  simp [lexer, create_file, fopen, h]

theorem lexer_open_ok (fs : String → Option (List Byte)) (filename : String) (junk : Byte)
    (w : World) (bytes : List Byte) (h : fs filename = some bytes) :
    lexer fs filename junk w =
      (whileLoop (bytes.length + 2) (initState { line := 1, pos := 1 } bytes junk w)).map
        (fun st => { w := st.w, tokens := st.tokens, reads := st.reads, file := some st.file }) := by
  simp only [lexer, create_file, fopen, h]
  cases whileLoop (bytes.length + 2) (initState { line := 1, pos := 1 } bytes junk w) <;> rfl

/-- The loop is skipped when the uninitialised `curr_char` happens to be `EOF`. -/
theorem lexer_skipped (fs : String → Option (List Byte)) (filename : String) (junk : Byte)
    (w : World) (bytes : List Byte) (h : fs filename = some bytes)
    (hj : toChar junk.val = EOF) :
    lexer fs filename junk w =
      some { w := w, tokens := [], reads := [], file := some { line := 1, pos := 1 } } := by
  rw [lexer_open_ok fs filename junk w bytes h]
  simp [whileLoop, initState, hj]

/-- A run of `lexer` on a source without the byte 0xFF, the loop being entered. -/
theorem lexer_no255 (fs : String → Option (List Byte)) (filename : String) (junk : Byte)
    (w : World) (bytes : List Byte) (h : fs filename = some bytes)
    (hno : ∀ b ∈ bytes, b ≠ 255) (hj : toChar junk.val ≠ EOF) :
    lexer fs filename junk w =
      some { w := { w with stderr := w.stderr ++ expectedDiags bytes },
             tokens := [], reads := bytes.map normChar ++ [EOF],
             file := some { line := 1, pos := 1 } } := by
  rw [lexer_open_ok fs filename junk w bytes h,
    whileLoop_no255 bytes (initState { line := 1, pos := 1 } bytes junk w) (bytes.length + 2)
      rfl hno hj (Nat.le_refl _)]
  simp [initState]

/-- A run of `lexer` on a source that opens: it returns, its cursor is where
`create_file` put it, it has built no token, the process is as live as before,
and the lines it has added to `stderr` are not errors. -/
theorem lexer_returns (fs : String → Option (List Byte)) (filename : String) (junk : Byte)
    (w : World) (bytes : List Byte) (h : fs filename = some bytes) :
    ∃ r, lexer fs filename junk w = some r ∧ r.tokens = [] ∧
      r.file = some { line := 1, pos := 1 } ∧ r.w.status = w.status ∧
      r.w.stdout = w.stdout ∧
      ∃ new : List Diag, r.w.stderr = w.stderr ++ new ∧ ∀ d ∈ new, d.type ≠ ERROR := by
  rw [lexer_open_ok fs filename junk w bytes h]
  obtain ⟨out, hout⟩ :=
    whileLoop_terminates bytes.length (initState { line := 1, pos := 1 } bytes junk w)
      (Nat.le_refl _)
  have hinv := whileLoop_inv
    (fun st => st.tokens = [] ∧ st.file = { line := 1, pos := 1 } ∧ st.w.status = w.status ∧
      st.w.stdout = w.stdout ∧
      ∃ new : List Diag, st.w.stderr = w.stderr ++ new ∧ ∀ d ∈ new, d.type ≠ ERROR)
    (by
      intro st ⟨h1, h2, h3, h4, new, h5, h6⟩
      refine ⟨by rw [loopBody_tokens, h1], by rw [loopBody_file, h2],
        by rw [loopBody_status, h3], by rw [loopBody_stdout, h4], ?_⟩
      obtain ⟨more, hm1, hm2⟩ := loopBody_stderr st
      refine ⟨new ++ more, by rw [hm1, h5, List.append_assoc], ?_⟩
      intro d hd
      rw [List.mem_append] at hd
      rcases hd with hd | hd
      · exact h6 d hd
      · exact hm2 d hd)
    (bytes.length + 2) (initState { line := 1, pos := 1 } bytes junk w) out
    ⟨rfl, rfl, rfl, rfl, [], by simp [initState], by simp⟩ hout
  rw [hout]
  obtain ⟨h1, h2, h3, h4, h5⟩ := hinv
  exact ⟨_, rfl, h1, by rw [← h2], h3, h4, h5⟩

/-- The function `lexer` never runs out of fuel. -/
theorem lexer_total (fs : String → Option (List Byte)) (filename : String) (junk : Byte)
    (w : World) : ∃ r, lexer fs filename junk w = some r := by
  cases h : fs filename with
  | none => exact ⟨_, lexer_open_fails fs filename junk w h⟩
  | some bytes =>
    obtain ⟨r, hr, _⟩ := lexer_returns fs filename junk w bytes h
    exact ⟨r, hr⟩

theorem oneFile_self (name : String) (bytes : List Byte) :
    oneFile name bytes name = some bytes := by
  simp [oneFile]

theorem oneFile_other (name other : String) (bytes : List Byte) (h : other ≠ name) :
    oneFile name bytes other = none := by
  simp [oneFile, h]

theorem whitespace_ne_255 (b : Byte) (h : isWhitespace b) : b ≠ 255 := by
  rcases h with rfl | rfl | rfl <;> decide

/-- With every line feed replaced by a carriage return, `nextc` returns the
same characters (source without the byte 0xFF, loop entered). -/
theorem lexer_crOnly_reads (name : String) (junk : Byte) (bytes : List Byte)
    (hno : ∀ b ∈ bytes, b ≠ 255) (hentered : toChar junk.val ≠ EOF) :
    (lexer (oneFile name (crOnly bytes)) name junk World.start).map (fun r => r.reads) =
      (lexer (oneFile name bytes) name junk World.start).map (fun r => r.reads) := by
  have hno2 : ∀ b ∈ crOnly bytes, b ≠ 255 := by
    intro b hb
    simp only [crOnly, List.mem_map] at hb
    obtain ⟨a, ha, rfl⟩ := hb
    split
    · decide
    · exact hno a ha
  have hmap : (crOnly bytes).map normChar = bytes.map normChar := by
    simp only [crOnly, List.map_map]
    apply List.map_congr_left
    intro a _
    simp only [Function.comp]
    split
    · rename_i h10
      subst h10
      decide
    · rfl
  rw [lexer_no255 _ _ junk World.start (crOnly bytes) (oneFile_self _ _) hno2 hentered,
    lexer_no255 _ _ junk World.start bytes (oneFile_self _ _) hno hentered]
  simp [hmap]

/-! ## Properties of the specification -/

/-- C4. On a stream that is not at its end, `nextc` consumes exactly one
byte; it returns the line feed when the character read is a carriage return
or a line feed and the character itself otherwise, and never returns the
carriage return. -/
theorem nextc_consumes_one_and_normalises (f : File) (b : Byte) (rest : FILE) :
    (nextc f (b :: rest)).2.1 = rest ∧
      (nextc f (b :: rest)).1 =
        (if toChar b.val = CR ∨ toChar b.val = LF then LF else toChar b.val) ∧
      (nextc f (b :: rest)).1 ≠ CR := by
  rw [nextc_cons]
  refine ⟨rfl, ?_, ?_⟩
  · simp only [normChar, toChar_byte_eq_CR, toChar_byte_eq_LF]
  · simp only [normChar]
    split
    · decide
    · rename_i h
      rw [Ne, toChar_byte_eq_CR]
      exact fun h13 => h (Or.inl h13)

/-- C8. The info and warning reports, free-form and token-attached, write
exactly one line of their own severity and change nothing else, so the
process is as live after the call as before; the error reports write one
error line and end the process with status 1. -/
theorem info_and_warning_reports_return (fmt : String) (args : List Arg) (token : Token)
    (w : World) :
    (linfo fmt args w =
        { w with stderr := w.stderr ++ [{ type := INFO, token := none, fmt := fmt, args := args }] }) ∧
      (lwarn fmt args w =
        { w with stderr := w.stderr ++ [{ type := WARNING, token := none, fmt := fmt, args := args }] }) ∧
      (linfot token fmt args w =
        { w with stderr := w.stderr ++
            [{ type := INFO, token := some token, fmt := fmt, args := args }] }) ∧
      (lwarnt token fmt args w =
        { w with stderr := w.stderr ++
            [{ type := WARNING, token := some token, fmt := fmt, args := args }] }) ∧
      ((linfo fmt args w).status = w.status ∧ (lwarn fmt args w).status = w.status ∧
        (linfot token fmt args w).status = w.status ∧
        (lwarnt token fmt args w).status = w.status) ∧
      (lerror fmt args w =
        { w with stderr := w.stderr ++ [{ type := ERROR, token := none, fmt := fmt, args := args }],
                 status := some 1 }) ∧
      (lerrort token fmt args w =
        { w with stderr := w.stderr ++
            [{ type := ERROR, token := some token, fmt := fmt, args := args }],
                 status := some 1 }) := by
  refine ⟨rfl, rfl, rfl, rfl, ⟨rfl, rfl, rfl, rfl⟩, rfl, rfl⟩

/-- C10. On a source of `n` bytes that opens and holds no byte 0xFF, with the
loop entered, `lexer` returns after `n + 1` calls of `nextc`, which have
returned the characters of the source once each and in order, then `EOF`;
`stderr` holds the info lines of the characters followed by the end-of-file
warning as its last line, and no error line; the process is still live. -/
theorem lexer_reads_every_byte_once (fs : String → Option (List Byte)) (filename : String)
    (junk : Byte) (bytes : List Byte) (hopen : fs filename = some bytes)
    (hno : ∀ b ∈ bytes, b ≠ 255) (hentered : toChar junk.val ≠ EOF) :
    ∃ r, lexer fs filename junk World.start = some r ∧
      r.reads.length = bytes.length + 1 ∧
      r.reads = bytes.map normChar ++ [EOF] ∧
      r.w.stderr = charDiags bytes ++ [eofWarning] ∧
      (∀ d ∈ charDiags bytes, d.type = INFO) ∧
      (∀ d ∈ r.w.stderr, d.type ≠ ERROR) ∧
      r.w.status = none := by
  refine ⟨_, lexer_no255 fs filename junk World.start bytes hopen hno hentered, ?_, rfl, ?_,
    charDiags_info bytes, ?_, rfl⟩
  · simp
  · simp [World.start, expectedDiags]
  · intro d hd
    simp only [World.start, List.nil_append] at hd
    exact expectedDiags_no_error bytes d hd

/-- C10 at the four-byte source `1`, carriage return, line feed, 0xC8. -/
theorem lexer_reads_every_byte_once_witness :
    ∃ r, lexer (oneFile "a.src" [49, 13, 10, 200]) "a.src" 0 World.start = some r ∧
      r.reads.length = 5 ∧
      r.reads = [49, 10, 10, -56, -1] ∧
      r.w.stderr = [charLine 49, newLineLine, nextLine 10, newLineLine, nextLine (-56),
        charLine (-56), eofWarning] ∧
      (∀ d ∈ charDiags [49, 13, 10, 200], d.type = INFO) ∧
      (∀ d ∈ r.w.stderr, d.type ≠ ERROR) ∧
      r.w.status = none :=
  lexer_reads_every_byte_once (oneFile "a.src" [49, 13, 10, 200]) "a.src" 0 [49, 13, 10, 200]
    (oneFile_self _ _) (by simp) (by decide)

/-- C1 (defect of the code). `nextc` receives the struct `File` by value: it
moves its own copy (here to line 2, column 1 on reading the line feed), and the
cursor of `lexer` is the same after every iteration as before it.  On the input
`1`, line feed, `2`, after the two characters `1` and line feed have been
consumed the cursor of `lexer` is at line 1, column 1, and it is still there
when `lexer` returns. -/
theorem lexer_cursor_never_moves :
    (∀ st : LexState, (loopBody st).file = st.file) ∧
      (loopBody (loopBody (initState { line := 1, pos := 1 } [49, 10, 50] 0 World.start))).reads
        = [49, 10] ∧
      (loopBody (loopBody (initState { line := 1, pos := 1 } [49, 10, 50] 0 World.start))).file
        = { line := 1, pos := 1 } ∧
      (nextc { line := 1, pos := 1 } [10, 50]).2.2 = { line := 2, pos := 1 } ∧
      (lexer (oneFile "a.src" [49, 10, 50]) "a.src" 0 World.start).map (fun r => r.file)
        = some (some { line := 1, pos := 1 }) := by
  refine ⟨loopBody_file, rfl, rfl, rfl, ?_⟩
  rw [lexer_no255 _ _ _ _ [49, 10, 50] (oneFile_self _ _) (by simp) (by decide)]
  rfl

/-- C2 (defect of the code). With the single line feed replaced by carriage
return, line feed, `nextc` returns the line feed twice where it returns it once
on the original; with the two line feeds of a two-line-feed input replaced by
carriage returns, the line `Next character is` shows the carriage return that
`peek` has read, where it shows the line feed on the original. -/
theorem lexer_crlf_and_cr_differ_from_lf :
    (lexer (oneFile "a.src" [10]) "a.src" 0 World.start).map (fun r => r.reads)
        = some [10, -1] ∧
      (lexer (oneFile "a.src" (crlf [10])) "a.src" 0 World.start).map (fun r => r.reads)
        = some [10, 10, -1] ∧
      (lexer (oneFile "a.src" [10, 10]) "a.src" 0 World.start).map (fun r => r.w.stderr)
        = some [newLineLine, nextLine 10, newLineLine, nextLine (-1), eofWarning] ∧
      (lexer (oneFile "a.src" (crOnly [10, 10])) "a.src" 0 World.start).map (fun r => r.w.stderr)
        = some [newLineLine, nextLine 13, newLineLine, nextLine (-1), eofWarning] ∧
      (lexer (oneFile "a.src" (crlf [10])) "a.src" 0 World.start).map (fun r => r.reads)
        ≠ (lexer (oneFile "a.src" [10]) "a.src" 0 World.start).map (fun r => r.reads) ∧
      (lexer (oneFile "a.src" (crOnly [10, 10])) "a.src" 0 World.start).map (fun r => r.w.stderr)
        ≠ (lexer (oneFile "a.src" [10, 10]) "a.src" 0 World.start).map (fun r => r.w.stderr) := by
  have h1 := lexer_no255 (oneFile "a.src" [10]) "a.src" 0 World.start [10]
    (oneFile_self _ _) (by simp) (by decide)
  have h2 := lexer_no255 (oneFile "a.src" (crlf [10])) "a.src" 0 World.start (crlf [10])
    (oneFile_self _ _) (by simp [crlf]) (by decide)
  have h3 := lexer_no255 (oneFile "a.src" [10, 10]) "a.src" 0 World.start [10, 10]
    (oneFile_self _ _) (by simp) (by decide)
  have h4 := lexer_no255 (oneFile "a.src" (crOnly [10, 10])) "a.src" 0 World.start
    (crOnly [10, 10]) (oneFile_self _ _) (by simp [crOnly]) (by decide)
  rw [h1, h2, h3, h4]
  refine ⟨rfl, rfl, rfl, rfl, ?_, ?_⟩ <;> decide

/-- C3 (defect of the code). When the next byte is 0xFF, `peek` returns the
value of `EOF` and the byte is gone from the stream: the `nextc` that follows
returns the character after it.  On the input line feed, 0xFF, `a` the run of
`lexer` never reports the byte 0xFF. -/
theorem peek_consumes_byte_255 :
    peek { line := 1, pos := 1 } [255, 97] = (EOF, [97]) ∧
      (nextc { line := 1, pos := 1 } (peek { line := 1, pos := 1 } [255, 97]).2).1 = 97 ∧
      (lexer (oneFile "a.src" [10, 255, 97]) "a.src" 0 World.start).map
          (fun r => (r.reads, r.w.stderr))
        = some ([10, 97, -1], [newLineLine, nextLine (-1), charLine 97, eofWarning]) := by
  refine ⟨rfl, rfl, ?_⟩
  rw [lexer_open_ok _ _ _ _ [10, 255, 97] (oneFile_self _ _)]
  rfl

/-- C9 (defect of the code). The result depends on the byte that the
uninitialised `curr_char` holds: on the empty source, with 0xFF there the loop
is skipped and nothing is reported, with 0 there the end-of-file warning is
reported. -/
theorem lexer_depends_on_uninitialised_curr_char :
    lexer (oneFile "a.src" []) "a.src" 255 World.start =
        some { w := World.start, tokens := [], reads := [],
               file := some { line := 1, pos := 1 } } ∧
      lexer (oneFile "a.src" []) "a.src" 0 World.start =
        some { w := { World.start with stderr := [eofWarning] }, tokens := [], reads := [-1],
               file := some { line := 1, pos := 1 } } ∧
      lexer (oneFile "a.src" []) "a.src" 255 World.start ≠
        lexer (oneFile "a.src" []) "a.src" 0 World.start := by
  have h1 := lexer_skipped (oneFile "a.src" []) "a.src" 255 World.start [] (oneFile_self _ _)
    (by decide)
  have h2 := lexer_no255 (oneFile "a.src" []) "a.src" 0 World.start [] (oneFile_self _ _)
    (by simp) (by decide)
  refine ⟨h1, h2, ?_⟩
  rw [h1, h2]
  decide

/-- C5, as stated, fails: on the input space, tab, line feed the run of
`lexer` (loop entered) builds no token and writes four info lines and
the end-of-file warning. -/
theorem lexer_whitespace_reports_lines :
    lexer (oneFile "a.src" [32, 9, 10]) "a.src" 0 World.start =
        some { w := { World.start with
                        stderr := [charLine 32, charLine 9, newLineLine, nextLine (-1), eofWarning] },
               tokens := [], reads := [32, 9, 10, -1],
               file := some { line := 1, pos := 1 } } ∧
      ¬ (∀ r, lexer (oneFile "a.src" [32, 9, 10]) "a.src" 0 World.start = some r →
          r.tokens = [] ∧ r.w.stderr = []) := by
  have h := lexer_no255 (oneFile "a.src" [32, 9, 10]) "a.src" 0 World.start [32, 9, 10]
    (oneFile_self _ _) (by simp) (by decide)
  refine ⟨h, ?_⟩
  intro hall
  have h2 := (hall _ h).2
  revert h2
  decide

/-- C5, amended. On a source that consists of spaces, tabs and line feeds
only (the empty source included), `lexer` returns, has built no token and has
written no error line; when its loop is entered, what it has written is one
`Char` line for each space or tab, two lines for each line feed, and
the end-of-file warning last. -/
theorem lexer_whitespace_only (fs : String → Option (List Byte)) (filename : String)
    (junk : Byte) (bytes : List Byte) (hopen : fs filename = some bytes)
    (hws : ∀ b ∈ bytes, isWhitespace b) :
    ∃ r, lexer fs filename junk World.start = some r ∧ r.tokens = [] ∧
      (∀ d ∈ r.w.stderr, d.type ≠ ERROR) ∧
      (toChar junk.val ≠ EOF → r.w.stderr = charDiags bytes ++ [eofWarning]) := by
  obtain ⟨r, hr, htok, _, _, _, new, hnew, hne⟩ :=
    lexer_returns fs filename junk World.start bytes hopen
  refine ⟨r, hr, htok, ?_, ?_⟩
  · intro d hd
    rw [hnew] at hd
    simp only [World.start, List.nil_append] at hd
    exact hne d hd
  · intro hj
    have h := lexer_no255 fs filename junk World.start bytes hopen
      (fun b hb => whitespace_ne_255 b (hws b hb)) hj
    rw [h] at hr
    cases hr
    simp [World.start, expectedDiags]

/-- The amended C5 at the input space, line feed, tab with the loop entered. -/
theorem lexer_whitespace_only_witness :
    (∀ b ∈ ([32, 10, 9] : List Byte), isWhitespace b) ∧
      ∃ r, lexer (oneFile "a.src" [32, 10, 9]) "a.src" 0 World.start = some r ∧ r.tokens = [] ∧
        (∀ d ∈ r.w.stderr, d.type ≠ ERROR) ∧
        r.w.stderr = [charLine 32, newLineLine, nextLine 9, charLine 9, eofWarning] := by
  have hws : ∀ b ∈ ([32, 10, 9] : List Byte), isWhitespace b := by simp [isWhitespace]
  obtain ⟨r, hr, h1, h2, h3⟩ :=
    lexer_whitespace_only (oneFile "a.src" [32, 10, 9]) "a.src" 0 [32, 10, 9]
      (oneFile_self _ _) hws
  exact ⟨hws, r, hr, h1, h2, h3 (by decide)⟩

/-- C6, as stated, fails: on the input of two equals signs the run of `lexer`
builds no token, so its token sequence is not a single token of kind `EQ`. -/
theorem lexer_double_equals_no_token :
    (lexer (oneFile "a.src" [61, 61]) "a.src" 0 World.start).map (fun r => r.tokens) = some [] ∧
      ¬ (∃ r t, lexer (oneFile "a.src" [61, 61]) "a.src" 0 World.start = some r ∧
          r.tokens = [t] ∧ t.tokenType = TokenType.EQ) := by
  have h := lexer_no255 (oneFile "a.src" [61, 61]) "a.src" 0 World.start [61, 61]
    (oneFile_self _ _) (by simp) (by decide)
  refine ⟨by rw [h]; rfl, ?_⟩
  rintro ⟨r, t, hr, ht, _⟩
  rw [h] at hr
  cases hr
  simp at ht

/-- C6, amended. With the loop entered, `lexer` builds no token on any of
the three inputs: on two equals signs it writes the line `Char: =` twice and
then the end-of-file warning; on one equals sign it writes that line once and
then the warning; on an equals sign followed by `x` it writes the line
`Char: =` first, followed by what it writes on the input `x`. -/
theorem lexer_equals_sign_lines (junk : Byte) (hentered : toChar junk.val ≠ EOF) :
    lexer (oneFile "a.src" [61, 61]) "a.src" junk World.start =
        some { w := { World.start with stderr := [charLine 61, charLine 61, eofWarning] },
               tokens := [], reads := [61, 61, -1], file := some { line := 1, pos := 1 } } ∧
      lexer (oneFile "a.src" [61]) "a.src" junk World.start =
        some { w := { World.start with stderr := [charLine 61, eofWarning] },
               tokens := [], reads := [61, -1], file := some { line := 1, pos := 1 } } ∧
      ∃ r rx, lexer (oneFile "a.src" [61, 120]) "a.src" junk World.start = some r ∧
        lexer (oneFile "a.src" [120]) "a.src" junk World.start = some rx ∧
        r.tokens = [] ∧ r.w.stderr = charLine 61 :: rx.w.stderr := by
  refine ⟨?_, ?_, _, _, lexer_no255 _ _ junk World.start [61, 120] (oneFile_self _ _) (by simp)
    hentered, lexer_no255 _ _ junk World.start [120] (oneFile_self _ _) (by simp) hentered,
    rfl, rfl⟩
  · rw [lexer_no255 _ _ junk World.start [61, 61] (oneFile_self _ _) (by simp) hentered]
    rfl
  · rw [lexer_no255 _ _ junk World.start [61] (oneFile_self _ _) (by simp) hentered]
    rfl

/-- The amended C6 with the byte 7 in the uninitialised `curr_char`. -/
theorem lexer_equals_sign_lines_witness :
    toChar ((7 : Byte).val) ≠ EOF ∧
      lexer (oneFile "a.src" [61, 61]) "a.src" 7 World.start =
        some { w := { World.start with stderr := [charLine 61, charLine 61, eofWarning] },
               tokens := [], reads := [61, 61, -1], file := some { line := 1, pos := 1 } } :=
  ⟨by decide, (lexer_equals_sign_lines 7 (by decide)).1⟩

/-- C7. A run of `lexer` ends with an error line on `stderr` and the exit
status 1 exactly when the source does not open.  If it does not open, `stderr`
holds the one error line, `nextc` has not been called, and the process
has ended with status 1.  If it opens, `lexer` returns with no error line
on `stderr` and the process live, and `main` then ends with status 0. -/
theorem lexer_error_iff_open_fails (fs : String → Option (List Byte)) (filename : String)
    (junk : Byte) :
    ∃ r, lexer fs filename junk World.start = some r ∧
      (((∃ d ∈ r.w.stderr, d.type = ERROR) ∧ r.w.status = some 1) ↔ fs filename = none) ∧
      (fs filename = none →
        r.w.stderr = [{ type := ERROR, token := none,
                        fmt := "Error trying to open the file (%s)",
                        args := [Arg.str filename] }] ∧
        r.reads = [] ∧ r.w.status = some 1 ∧
        ∀ prog, main fs [prog, filename] junk = some r.w) ∧
      (fs filename ≠ none →
        (∀ d ∈ r.w.stderr, d.type ≠ ERROR) ∧ r.w.status = none ∧
        ∀ prog, main fs [prog, filename] junk = some { r.w with status := some 0 }) := by
  cases h : fs filename with
  | none =>
    have hr := lexer_open_fails fs filename junk World.start h
    refine ⟨_, hr, ?_, ?_, ?_⟩
    · simp [lerror, exit, print, World.start]
    · intro _
      refine ⟨rfl, rfl, rfl, ?_⟩
      intro prog
      simp [main, hr, lerror, exit, print]
    · intro hne
      exact absurd rfl hne
  | some bytes =>
    obtain ⟨r, hr, _, _, hst, _, new, hnew, hne⟩ :=
      lexer_returns fs filename junk World.start bytes h
    have herr : ∀ d ∈ r.w.stderr, d.type ≠ ERROR := by
      intro d hd
      rw [hnew] at hd
      simp only [World.start, List.nil_append] at hd
      exact hne d hd
    have hlive : r.w.status = none := by rw [hst]; rfl
    refine ⟨r, hr, ?_, ?_, ?_⟩
    · constructor
      · rintro ⟨_, h1⟩
        rw [hlive] at h1
        cases h1
      · intro h0
        cases h0
    · intro h0
      cases h0
    · intro _
      refine ⟨herr, hlive, ?_⟩
      intro prog
      simp [main, hr, hlive, exit]

/-- C7 at a file system with the single file `a.src`: opening `b.src`
fails, opening `a.src` succeeds. -/
theorem lexer_error_iff_open_fails_witness :
    (∃ r, lexer (oneFile "a.src" [49]) "b.src" 0 World.start = some r ∧
        r.reads = [] ∧ r.w.status = some 1) ∧
      (∃ r, lexer (oneFile "a.src" [49]) "a.src" 0 World.start = some r ∧
        (∀ d ∈ r.w.stderr, d.type ≠ ERROR) ∧ r.w.status = none) := by
  constructor
  · obtain ⟨r, hr, _, hfail, _⟩ := lexer_error_iff_open_fails (oneFile "a.src" [49]) "b.src" 0
    have h := hfail (oneFile_other _ _ _ (by decide))
    exact ⟨r, hr, h.2.1, h.2.2.1⟩
  · obtain ⟨r, hr, _, _, hok⟩ := lexer_error_iff_open_fails (oneFile "a.src" [49]) "a.src" 0
    have h := hok (by rw [oneFile_self]; simp)
    exact ⟨r, hr, h.1, h.2.1⟩

end Compiler
